import Mathlib

/-!
Verification of the `sf::VertexArray` container
(src/include/SFML/Graphics/VertexArray.hpp).

The repository ships only the header: the class declaration together with
the documentation of each member function.  The bodies of the member
functions are not part of the sources, so every operation below is
modelled from the specification's description of its behaviour (the header
documentation agrees with it).  Vertex positions are modelled by rational
numbers, an exact stand-in for the real-valued 2D coordinate space.
-/

namespace SFML

/-- Modelled from the spec: the external 2D vector type used for vertex
positions and texture coordinates (`sf::Vector2f`, not in src/); a pair of
coordinates in a real-valued plane, modelled exactly with rationals. -/
structure Vector2f where
  x : ℚ
  y : ℚ
deriving DecidableEq, Repr

/-- Modelled from the spec: the external colour record carried opaquely by a
vertex (`sf::Color`, not in src/): four channel fields, default zero. -/
structure Color where
  r : ℕ
  g : ℕ
  b : ℕ
  a : ℕ
deriving DecidableEq, Repr

/-- Modelled from the spec: the external vertex record (`sf::Vertex`, not in
src/): a 2D position plus opaque colour and texture-coordinate fields. -/
structure Vertex where
  Position : Vector2f
  Color : Color
  TexCoords : Vector2f
deriving DecidableEq, Repr

/-- Modelled from the spec: the default vertex value, all fields
zero/default. -/
def defaultVertex : Vertex :=
  { Position := ⟨0, 0⟩, Color := ⟨0, 0, 0, 0⟩, TexCoords := ⟨0, 0⟩ }

instance : Inhabited Vertex := ⟨defaultVertex⟩

/-- Modelled from the spec: the external primitive-type enumeration
(`sf::PrimitiveType`, not in src/). -/
inductive PrimitiveType where
  | Points
  | Lines
  | LinesStrip
  | Triangles
  | TrianglesStrip
  | TrianglesFan
  | Quads
deriving DecidableEq, Repr

/-- Modelled from the spec: the external axis-aligned rectangle type
(`sf::FloatRect`, not in src/), represented as (x, y, width, height). -/
structure FloatRect where
  Left : ℚ
  Top : ℚ
  Width : ℚ
  Height : ℚ
deriving DecidableEq, Repr

/-- The state of a `sf::VertexArray`: an ordered sequence of vertices and a
primitive-type tag (the two member fields declared in the header). -/
structure VertexArray where
  myVertices : List Vertex
  myPrimitiveType : PrimitiveType
deriving DecidableEq, Repr

namespace VertexArray

/-- Modelled from the spec: the default constructor creates an empty array
with primitive type Points. -/
def empty : VertexArray :=
  { myVertices := [], myPrimitiveType := .Points }

/-- Modelled from the spec: the (type, count) constructor creates an array
with the given primitive type and `vertexCount` default-valued vertices. -/
def mkWith (type : PrimitiveType) (vertexCount : ℕ) : VertexArray :=
  { myVertices := List.replicate vertexCount defaultVertex
    myPrimitiveType := type }

/-- `GetVertexCount` returns the current number of vertices. -/
def GetVertexCount (va : VertexArray) : ℕ :=
  va.myVertices.length

/-- Modelled from the spec: the read-only indexed access `operator[] const`;
the index must be in range (unchecked precondition), out-of-range access is
modelled by the default vertex. -/
def getVertex (va : VertexArray) (index : ℕ) : Vertex :=
  va.myVertices.getD index defaultVertex

/-- Modelled from the spec: the mutable indexed access `operator[]` used as
a write: replaces the vertex at `index` (in-range by precondition). -/
def setVertex (va : VertexArray) (index : ℕ) (v : Vertex) : VertexArray :=
  { va with myVertices := va.myVertices.set index v }

/-- Modelled from the spec: `Clear` removes all the vertices. -/
def Clear (va : VertexArray) : VertexArray :=
  { va with myVertices := [] }

/-- Modelled from the spec: `Resize` keeps the first `vertexCount` vertices
and, when growing, appends default-constructed vertices. -/
def Resize (va : VertexArray) (vertexCount : ℕ) : VertexArray :=
  { va with
      myVertices :=
        va.myVertices.take vertexCount ++
          List.replicate (vertexCount - va.myVertices.length) defaultVertex }

/-- Modelled from the spec: `Append` adds one vertex at the end. -/
def Append (va : VertexArray) (vertex : Vertex) : VertexArray :=
  { va with myVertices := va.myVertices ++ [vertex] }

/-- Modelled from the spec: `SetPrimitiveType` stores the tag. -/
def SetPrimitiveType (va : VertexArray) (type : PrimitiveType) : VertexArray :=
  { va with myPrimitiveType := type }

/-- `GetPrimitiveType` returns the stored tag. -/
def GetPrimitiveType (va : VertexArray) : PrimitiveType :=
  va.myPrimitiveType

/-- Running minimum of a list of rationals, seeded with `a`. -/
def foldlMin (a : ℚ) (l : List ℚ) : ℚ :=
  l.foldl min a

/-- Running maximum of a list of rationals, seeded with `a`. -/
def foldlMax (a : ℚ) (l : List ℚ) : ℚ :=
  l.foldl max a

/-- The x coordinates of all vertices of the array. -/
def positionsX (va : VertexArray) : List ℚ :=
  va.myVertices.map fun v => v.Position.x

/-- The y coordinates of all vertices of the array. -/
def positionsY (va : VertexArray) : List ℚ :=
  va.myVertices.map fun v => v.Position.y

/-- Modelled from the spec: `GetBounds` returns a degenerate rectangle at
the origin for an empty array; otherwise it folds over all positions
tracking the running minimum and maximum on each axis independently and
returns (minX, minY, maxX - minX, maxY - minY). -/
def GetBounds (va : VertexArray) : FloatRect :=
  match va.myVertices with
  | [] => ⟨0, 0, 0, 0⟩
  | v :: rest =>
      let l := foldlMin v.Position.x (rest.map fun w => w.Position.x)
      let t := foldlMin v.Position.y (rest.map fun w => w.Position.y)
      let r := foldlMax v.Position.x (rest.map fun w => w.Position.x)
      let b := foldlMax v.Position.y (rest.map fun w => w.Position.y)
      ⟨l, t, r - l, b - t⟩

/-- A point lies inside (weakly) an axis-aligned rectangle. -/
def containsPoint (rect : FloatRect) (p : Vector2f) : Prop :=
  rect.Left ≤ p.x ∧ p.x ≤ rect.Left + rect.Width ∧
  rect.Top ≤ p.y ∧ p.y ≤ rect.Top + rect.Height

/-- A point lies strictly inside an axis-aligned rectangle. -/
def strictlyInside (rect : FloatRect) (p : Vector2f) : Prop :=
  rect.Left < p.x ∧ p.x < rect.Left + rect.Width ∧
  rect.Top < p.y ∧ p.y < rect.Top + rect.Height

instance (rect : FloatRect) (p : Vector2f) : Decidable (containsPoint rect p) := by
  unfold containsPoint; infer_instance

instance (rect : FloatRect) (p : Vector2f) : Decidable (strictlyInside rect p) := by
  unfold strictlyInside; infer_instance

/-- Fold a sequence of `Append` calls over the array, left to right. -/
def appendAll (va : VertexArray) (vs : List Vertex) : VertexArray :=
  vs.foldl Append va

/-- `m` is the least element of the list `l`. -/
def isMinOf (m : ℚ) (l : List ℚ) : Prop := m ∈ l ∧ ∀ q ∈ l, m ≤ q

/-- `m` is the greatest element of the list `l`. -/
def isMaxOf (m : ℚ) (l : List ℚ) : Prop := m ∈ l ∧ ∀ q ∈ l, q ≤ m

/-- Modelled from the spec: `GetVertexCount` is a const member function; its
call is a state transformer returning the count and the post-call state. -/
def GetVertexCountOp (va : VertexArray) : ℕ × VertexArray :=
  (va.GetVertexCount, va)

/-- Modelled from the spec: `GetPrimitiveType` is a const member function;
its call returns the tag and the post-call state. -/
def GetPrimitiveTypeOp (va : VertexArray) : PrimitiveType × VertexArray :=
  (va.GetPrimitiveType, va)

/-- Modelled from the spec: `GetBounds` is a const member function; its call
returns the bounding rectangle and the post-call state. -/
def GetBoundsOp (va : VertexArray) : FloatRect × VertexArray :=
  (va.GetBounds, va)

/-- Modelled from the spec: the read-only indexed access is a const member
function; its call returns the vertex and the post-call state. -/
def getVertexOp (va : VertexArray) (index : ℕ) : Vertex × VertexArray :=
  (va.getVertex index, va)

end VertexArray

/-- Modelled from the spec: the backing `std::vector` storage of
`myVertices`, instrumented with its capacity and an identity for the current
allocation; a reallocation assigns a fresh identity. -/
structure VertexArrayMem where
  array : VertexArray
  capacity : ℕ
  allocId : ℕ
deriving DecidableEq, Repr

namespace VertexArrayMem

/-- Modelled from the spec: `Clear` empties the array but retains the
backing storage: capacity and allocation identity are unchanged. -/
def ClearMem (s : VertexArrayMem) : VertexArrayMem :=
  { s with array := s.array.Clear }

/-- Modelled from the spec: `Append` with spare capacity reuses the current
allocation; a full buffer triggers a reallocation (fresh allocation
identity) with geometric growth. -/
def AppendMem (s : VertexArrayMem) (v : Vertex) : VertexArrayMem :=
  if s.array.GetVertexCount < s.capacity then
    { s with array := s.array.Append v }
  else
    { array := s.array.Append v
      capacity := max 1 (2 * s.capacity)
      allocId := s.allocId + 1 }

/-- Fold a sequence of instrumented `Append` calls, left to right. -/
def appendAllMem (s : VertexArrayMem) (vs : List Vertex) : VertexArrayMem :=
  vs.foldl AppendMem s

end VertexArrayMem

/-- A vertex at position (0, 0) with default attributes. -/
def vert00 : Vertex := { defaultVertex with Position := ⟨0, 0⟩ }

/-- A vertex at position (10, 0) with default attributes. -/
def vert100 : Vertex := { defaultVertex with Position := ⟨10, 0⟩ }

/-- A vertex at position (5, 5) with default attributes. -/
def vert55 : Vertex := { defaultVertex with Position := ⟨5, 5⟩ }

/-- A vertex at position (10, 10) with default attributes. -/
def vert1010 : Vertex := { defaultVertex with Position := ⟨10, 10⟩ }

/-- A vertex at position (3, 7) with a non-default colour. -/
def vert37 : Vertex := { Position := ⟨3, 7⟩, Color := ⟨1, 2, 3, 4⟩, TexCoords := ⟨9, 9⟩ }

/-- The spec's worked example: vertices at (0,0), (10,0), (5,5). -/
def exTri : VertexArray := ⟨[vert00, vert100, vert55], .Points⟩

/-- A concrete two-vertex array, used to exercise the operations. -/
def exPair : VertexArray := ⟨[vert00, vert1010], .Lines⟩

/-- The sequence of `exPair` reordered. -/
def exPairRev : VertexArray := ⟨[vert1010, vert00], .Lines⟩

namespace VertexArray

theorem foldlMin_le_init (a : ℚ) (l : List ℚ) : VertexArray.foldlMin a l ≤ a := by
  induction l generalizing a with
  | nil => exact le_refl a
  | cons x l ih =>
      calc VertexArray.foldlMin (min a x) l ≤ min a x := ih (min a x)
        _ ≤ a := min_le_left a x

theorem foldlMin_le_mem (a : ℚ) (l : List ℚ) (x : ℚ) (hx : x ∈ l) :
    VertexArray.foldlMin a l ≤ x := by
  induction l generalizing a with
  | nil => cases hx
  | cons y l ih =>
      rcases List.mem_cons.mp hx with h | h
      · subst h
        calc VertexArray.foldlMin (min a x) l ≤ min a x := foldlMin_le_init _ _
          _ ≤ x := min_le_right a x
      · exact ih (min a y) h

theorem le_foldlMin (a c : ℚ) (l : List ℚ) (ha : c ≤ a) (hl : ∀ x ∈ l, c ≤ x) :
    c ≤ VertexArray.foldlMin a l := by
  induction l generalizing a with
  | nil => exact ha
  | cons y l ih =>
      exact ih (min a y) (le_min ha (hl y (List.mem_cons_self y l)))
        fun x hx => hl x (List.mem_cons_of_mem y hx)

theorem foldlMin_mem (a : ℚ) (l : List ℚ) :
    VertexArray.foldlMin a l = a ∨ VertexArray.foldlMin a l ∈ l := by
  induction l generalizing a with
  | nil => exact Or.inl rfl
  | cons y l ih =>
      rcases ih (min a y) with h | h
      · rcases min_choice a y with hm | hm
        · exact Or.inl (by rw [VertexArray.foldlMin, List.foldl_cons, ← VertexArray.foldlMin, h, hm])
        · refine Or.inr (List.mem_cons.mpr (Or.inl ?_))
          rw [VertexArray.foldlMin, List.foldl_cons, ← VertexArray.foldlMin, h, hm]
      · exact Or.inr (List.mem_cons_of_mem y h)

theorem foldlMin_append_singleton (a c : ℚ) (l : List ℚ) :
    VertexArray.foldlMin a (l ++ [c]) = min (VertexArray.foldlMin a l) c := by
  simp [VertexArray.foldlMin, List.foldl_append]

theorem foldlMax_init_le (a : ℚ) (l : List ℚ) : a ≤ VertexArray.foldlMax a l := by
  induction l generalizing a with
  | nil => exact le_refl a
  | cons x l ih =>
      calc a ≤ max a x := le_max_left a x
        _ ≤ VertexArray.foldlMax (max a x) l := ih (max a x)

theorem mem_le_foldlMax (a : ℚ) (l : List ℚ) (x : ℚ) (hx : x ∈ l) :
    x ≤ VertexArray.foldlMax a l := by
  induction l generalizing a with
  | nil => cases hx
  | cons y l ih =>
      rcases List.mem_cons.mp hx with h | h
      · subst h
        calc x ≤ max a x := le_max_right a x
          _ ≤ VertexArray.foldlMax (max a x) l := foldlMax_init_le _ _
      · exact ih (max a y) h

theorem foldlMax_le (a c : ℚ) (l : List ℚ) (ha : a ≤ c) (hl : ∀ x ∈ l, x ≤ c) :
    VertexArray.foldlMax a l ≤ c := by
  induction l generalizing a with
  | nil => exact ha
  | cons y l ih =>
      exact ih (max a y) (max_le ha (hl y (List.mem_cons_self y l)))
        fun x hx => hl x (List.mem_cons_of_mem y hx)

theorem foldlMax_mem (a : ℚ) (l : List ℚ) :
    VertexArray.foldlMax a l = a ∨ VertexArray.foldlMax a l ∈ l := by
  induction l generalizing a with
  | nil => exact Or.inl rfl
  | cons y l ih =>
      rcases ih (max a y) with h | h
      · rcases max_choice a y with hm | hm
        · exact Or.inl (by rw [VertexArray.foldlMax, List.foldl_cons, ← VertexArray.foldlMax, h, hm])
        · refine Or.inr (List.mem_cons.mpr (Or.inl ?_))
          rw [VertexArray.foldlMax, List.foldl_cons, ← VertexArray.foldlMax, h, hm]
      · exact Or.inr (List.mem_cons_of_mem y h)

theorem foldlMax_append_singleton (a c : ℚ) (l : List ℚ) :
    VertexArray.foldlMax a (l ++ [c]) = max (VertexArray.foldlMax a l) c := by
  simp [VertexArray.foldlMax, List.foldl_append]

theorem isMinOf_cons_foldlMin (a : ℚ) (l : List ℚ) :
    isMinOf (foldlMin a l) (a :: l) := by
  constructor
  · rcases foldlMin_mem a l with h | h
    · exact List.mem_cons.mpr (Or.inl h)
    · exact List.mem_cons_of_mem a h
  · intro q hq
    rcases List.mem_cons.mp hq with h | h
    · exact h ▸ foldlMin_le_init a l
    · exact foldlMin_le_mem a l q h

theorem isMaxOf_cons_foldlMax (a : ℚ) (l : List ℚ) :
    isMaxOf (foldlMax a l) (a :: l) := by
  constructor
  · rcases foldlMax_mem a l with h | h
    · exact List.mem_cons.mpr (Or.inl h)
    · exact List.mem_cons_of_mem a h
  · intro q hq
    rcases List.mem_cons.mp hq with h | h
    · exact h ▸ foldlMax_init_le a l
    · exact mem_le_foldlMax a l q h

theorem isMinOf_unique (m n : ℚ) (l l' : List ℚ) (hp : l.Perm l')
    (hm : isMinOf m l) (hn : isMinOf n l') : m = n :=
  le_antisymm (hm.2 n (hp.symm.mem_iff.mp hn.1)) (hn.2 m (hp.mem_iff.mp hm.1))

theorem isMaxOf_unique (m n : ℚ) (l l' : List ℚ) (hp : l.Perm l')
    (hm : isMaxOf m l) (hn : isMaxOf n l') : m = n :=
  le_antisymm (hn.2 m (hp.mem_iff.mp hm.1)) (hm.2 n (hp.symm.mem_iff.mp hn.1))

theorem positionsX_cons (v : Vertex) (rest : List Vertex) (pt : PrimitiveType) :
    positionsX ⟨v :: rest, pt⟩ = v.Position.x :: rest.map (fun w => w.Position.x) := rfl

theorem positionsY_cons (v : Vertex) (rest : List Vertex) (pt : PrimitiveType) :
    positionsY ⟨v :: rest, pt⟩ = v.Position.y :: rest.map (fun w => w.Position.y) := rfl

theorem getBounds_cons (v : Vertex) (rest : List Vertex) (pt : PrimitiveType) :
    GetBounds ⟨v :: rest, pt⟩ =
      ⟨foldlMin v.Position.x (rest.map fun w => w.Position.x),
       foldlMin v.Position.y (rest.map fun w => w.Position.y),
       foldlMax v.Position.x (rest.map fun w => w.Position.x) -
         foldlMin v.Position.x (rest.map fun w => w.Position.x),
       foldlMax v.Position.y (rest.map fun w => w.Position.y) -
         foldlMin v.Position.y (rest.map fun w => w.Position.y)⟩ := rfl

theorem getBounds_right_eq (v : Vertex) (rest : List Vertex) (pt : PrimitiveType) :
    (GetBounds ⟨v :: rest, pt⟩).Left + (GetBounds ⟨v :: rest, pt⟩).Width =
      foldlMax v.Position.x (rest.map fun w => w.Position.x) := by
  rw [getBounds_cons]; ring

theorem getBounds_bottom_eq (v : Vertex) (rest : List Vertex) (pt : PrimitiveType) :
    (GetBounds ⟨v :: rest, pt⟩).Top + (GetBounds ⟨v :: rest, pt⟩).Height =
      foldlMax v.Position.y (rest.map fun w => w.Position.y) := by
  rw [getBounds_cons]; ring

theorem getBounds_left_isMin (v : Vertex) (rest : List Vertex) (pt : PrimitiveType) :
    isMinOf (GetBounds ⟨v :: rest, pt⟩).Left (positionsX ⟨v :: rest, pt⟩) := by
  rw [positionsX_cons, getBounds_cons]
  exact isMinOf_cons_foldlMin _ _

theorem getBounds_top_isMin (v : Vertex) (rest : List Vertex) (pt : PrimitiveType) :
    isMinOf (GetBounds ⟨v :: rest, pt⟩).Top (positionsY ⟨v :: rest, pt⟩) := by
  rw [positionsY_cons, getBounds_cons]
  exact isMinOf_cons_foldlMin _ _

theorem getBounds_right_isMax (v : Vertex) (rest : List Vertex) (pt : PrimitiveType) :
    isMaxOf ((GetBounds ⟨v :: rest, pt⟩).Left + (GetBounds ⟨v :: rest, pt⟩).Width)
      (positionsX ⟨v :: rest, pt⟩) := by
  rw [positionsX_cons, getBounds_right_eq]
  exact isMaxOf_cons_foldlMax _ _

theorem getBounds_bottom_isMax (v : Vertex) (rest : List Vertex) (pt : PrimitiveType) :
    isMaxOf ((GetBounds ⟨v :: rest, pt⟩).Top + (GetBounds ⟨v :: rest, pt⟩).Height)
      (positionsY ⟨v :: rest, pt⟩) := by
  rw [positionsY_cons, getBounds_bottom_eq]
  exact isMaxOf_cons_foldlMax _ _

theorem mem_positionsX (va : VertexArray) (w : Vertex) (hw : w ∈ va.myVertices) :
    w.Position.x ∈ positionsX va :=
  List.mem_map_of_mem (fun u => u.Position.x) hw

theorem mem_positionsY (va : VertexArray) (w : Vertex) (hw : w ∈ va.myVertices) :
    w.Position.y ∈ positionsY va :=
  List.mem_map_of_mem (fun u => u.Position.y) hw

theorem rect_ext (r s : FloatRect) (h1 : r.Left = s.Left) (h2 : r.Top = s.Top)
    (h3 : r.Left + r.Width = s.Left + s.Width)
    (h4 : r.Top + r.Height = s.Top + s.Height) : r = s := by
  cases r; cases s
  simp only at h1 h2 h3 h4
  subst h1; subst h2
  simp only [add_right_inj] at h3 h4
  subst h3; subst h4
  rfl

theorem appendAll_myVertices (va : VertexArray) (vs : List Vertex) :
    (appendAll va vs).myVertices = va.myVertices ++ vs := by
  induction vs generalizing va with
  | nil => simp [appendAll]
  | cons v vs ih =>
      show (appendAll (Append va v) vs).myVertices = _
      rw [ih]
      simp [Append]

/-- C2: `GetBounds` on an empty vertex array does not fail and returns the
degenerate rectangle (0, 0, 0, 0) at the origin. -/
theorem c2_getBounds_empty (va : VertexArray) (h : va.myVertices = []) :
    GetBounds va = ⟨0, 0, 0, 0⟩ := by
  obtain ⟨vs, pt⟩ := va
  change vs = [] at h
  subst h
  rfl

theorem c2_witness : GetBounds empty = ⟨0, 0, 0, 0⟩ :=
  c2_getBounds_empty empty rfl

/-- C5: constructing with a primitive type and a count `n` yields that
primitive type, `n` vertices, and every vertex equal to the default vertex
value. -/
theorem c5_construct (type : PrimitiveType) (n : ℕ) :
    (mkWith type n).GetPrimitiveType = type ∧
    (mkWith type n).GetVertexCount = n ∧
    (∀ v ∈ (mkWith type n).myVertices, v = defaultVertex) ∧
    ∀ i, i < n → (mkWith type n).getVertex i = defaultVertex := by
  refine ⟨rfl, by simp [mkWith, GetVertexCount], ?_, ?_⟩
  · intro v hv
    exact List.eq_of_mem_replicate hv
  · intro i hi
    simp [mkWith, getVertex, List.getD_eq_getElem?_getD, List.getElem?_replicate, hi]

theorem c5_witness :
    (mkWith .Lines 3).GetPrimitiveType = .Lines ∧
    (mkWith .Lines 3).GetVertexCount = 3 ∧
    (mkWith .Lines 3).getVertex 1 = defaultVertex :=
  ⟨(c5_construct .Lines 3).1, (c5_construct .Lines 3).2.1,
   (c5_construct .Lines 3).2.2.2 1 (by decide)⟩

/-- C6: `Clear` sets the vertex sequence to empty, so the vertex count
afterwards is 0 regardless of the prior state. -/
theorem c6_clear_count (va : VertexArray) :
    (Clear va).myVertices = [] ∧ (Clear va).GetVertexCount = 0 :=
  ⟨rfl, rfl⟩

/-- C10: every read-only operation (vertex count, primitive type, bounds,
read-only indexed access) leaves the array state unchanged. -/
theorem c10_readonly_frame (va : VertexArray) (index : ℕ) :
    (GetVertexCountOp va).2 = va ∧
    (GetPrimitiveTypeOp va).2 = va ∧
    (GetBoundsOp va).2 = va ∧
    (getVertexOp va index).2 = va :=
  ⟨rfl, rfl, rfl, rfl⟩

/-- C4: a sequence of `k` appends starting from an empty array yields vertex
count `k`, each append adds the vertex at the end increasing the length by
exactly one, and the `i`-th appended vertex is retrievable unchanged at
index `i`. -/
theorem c4_append_sequence (va : VertexArray) (vs : List Vertex) (h : va.myVertices = []) :
    (∀ (w : VertexArray) (u : Vertex),
      (Append w u).myVertices = w.myVertices ++ [u] ∧
      (Append w u).GetVertexCount = w.GetVertexCount + 1) ∧
    (appendAll va vs).GetVertexCount = vs.length ∧
    ∀ i, i < vs.length → (appendAll va vs).getVertex i = vs.getD i defaultVertex := by
  have hv : (appendAll va vs).myVertices = vs := by
    rw [appendAll_myVertices, h, List.nil_append]
  refine ⟨?_, ?_, ?_⟩
  · intro w u
    exact ⟨rfl, by simp [Append, GetVertexCount]⟩
  · rw [GetVertexCount, hv]
  · intro i hi
    rw [getVertex, hv]

theorem c4_witness :
    (appendAll empty [vert00, vert37]).GetVertexCount = 2 ∧
    (appendAll empty [vert00, vert37]).getVertex 1 = [vert00, vert37].getD 1 defaultVertex :=
  ⟨(c4_append_sequence empty [vert00, vert37] rfl).2.1,
   (c4_append_sequence empty [vert00, vert37] rfl).2.2 1 (by decide)⟩

/-- C9: an in-range indexed write changes exactly the targeted vertex:
the written index holds the new value, every other index is unchanged, and
the count and primitive type are unchanged. -/
theorem c9_indexed_write (va : VertexArray) (i : ℕ) (v : Vertex)
    (h : i < va.GetVertexCount) :
    (setVertex va i v).GetVertexCount = va.GetVertexCount ∧
    (setVertex va i v).getVertex i = v ∧
    (∀ j, j < va.GetVertexCount → j ≠ i →
      (setVertex va i v).getVertex j = va.getVertex j) ∧
    (setVertex va i v).GetPrimitiveType = va.GetPrimitiveType := by
  refine ⟨by simp [setVertex, GetVertexCount], ?_, ?_, rfl⟩
  · rw [GetVertexCount] at h
    simp [setVertex, getVertex, List.getD_eq_getElem?_getD, List.getElem?_set_self, h]
  · intro j hj hne
    simp [setVertex, getVertex, List.getD_eq_getElem?_getD, List.getElem?_set_ne (Ne.symm hne)]

theorem c9_witness :
    (setVertex exPair 1 vert37).GetVertexCount = exPair.GetVertexCount ∧
    (setVertex exPair 1 vert37).getVertex 1 = vert37 ∧
    (setVertex exPair 1 vert37).getVertex 0 = exPair.getVertex 0 ∧
    (setVertex exPair 1 vert37).GetPrimitiveType = exPair.GetPrimitiveType := by
  have h := c9_indexed_write exPair 1 vert37 (by decide)
  exact ⟨h.1, h.2.1, h.2.2.1 0 (by decide) (by decide), h.2.2.2⟩

/-- C3: after `Resize m`, the count is `m`; when growing, the old vertices
are kept and the new tail is default-valued; when shrinking, the first `m`
vertices are kept; when `m` equals the old count the array is unchanged. -/
theorem c3_resize (va : VertexArray) (m : ℕ) :
    (Resize va m).GetVertexCount = m ∧
    (va.GetVertexCount ≤ m →
      (Resize va m).myVertices =
        va.myVertices ++ List.replicate (m - va.GetVertexCount) defaultVertex) ∧
    (m ≤ va.GetVertexCount → (Resize va m).myVertices = va.myVertices.take m) ∧
    (m = va.GetVertexCount → Resize va m = va) := by
  obtain ⟨vs, pt⟩ := va
  refine ⟨?_, ?_, ?_, ?_⟩
  · simp [Resize, GetVertexCount]
    omega
  · intro hle
    rw [GetVertexCount] at hle
    simp [Resize, List.take_of_length_le hle, GetVertexCount]
  · intro hge
    rw [GetVertexCount] at hge
    simp [Resize, Nat.sub_eq_zero_of_le hge]
  · intro heq
    rw [GetVertexCount] at heq
    subst heq
    simp [Resize, VertexArray.mk.injEq, List.take_of_length_le (le_refl _)]

theorem c3_witness :
    (Resize exPair 4).GetVertexCount = 4 ∧
    (Resize exPair 4).myVertices =
      exPair.myVertices ++ List.replicate (4 - exPair.GetVertexCount) defaultVertex ∧
    (Resize exPair 1).myVertices = exPair.myVertices.take 1 :=
  ⟨(c3_resize exPair 4).1, (c3_resize exPair 4).2.1 (by decide),
   (c3_resize exPair 1).2.2.1 (by decide)⟩

/-- C1: on a non-empty array, `GetBounds` is the rectangle built from the
running minima and maxima of the coordinates on each axis independently,
as (minX, minY, maxX - minX, maxY - minY); it contains every vertex
position and is the smallest such axis-aligned rectangle. -/
theorem c1_getBounds_minmax (va : VertexArray) (v : Vertex) (rest : List Vertex)
    (h : va.myVertices = v :: rest) :
    GetBounds va =
      ⟨foldlMin v.Position.x (rest.map fun w => w.Position.x),
       foldlMin v.Position.y (rest.map fun w => w.Position.y),
       foldlMax v.Position.x (rest.map fun w => w.Position.x) -
         foldlMin v.Position.x (rest.map fun w => w.Position.x),
       foldlMax v.Position.y (rest.map fun w => w.Position.y) -
         foldlMin v.Position.y (rest.map fun w => w.Position.y)⟩ ∧
    (∀ w ∈ va.myVertices, containsPoint (GetBounds va) w.Position) ∧
    ∀ rect : FloatRect, (∀ w ∈ va.myVertices, containsPoint rect w.Position) →
      rect.Left ≤ (GetBounds va).Left ∧
      (GetBounds va).Left + (GetBounds va).Width ≤ rect.Left + rect.Width ∧
      rect.Top ≤ (GetBounds va).Top ∧
      (GetBounds va).Top + (GetBounds va).Height ≤ rect.Top + rect.Height := by
  obtain ⟨vs, pt⟩ := va
  change vs = v :: rest at h
  subst h
  have hLmin := getBounds_left_isMin v rest pt
  have hTmin := getBounds_top_isMin v rest pt
  have hRmax := getBounds_right_isMax v rest pt
  have hBmax := getBounds_bottom_isMax v rest pt
  refine ⟨getBounds_cons v rest pt, ?_, ?_⟩
  · intro w hw
    have hwx := mem_positionsX ⟨v :: rest, pt⟩ w hw
    have hwy := mem_positionsY ⟨v :: rest, pt⟩ w hw
    exact ⟨hLmin.2 _ hwx, hRmax.2 _ hwx, hTmin.2 _ hwy, hBmax.2 _ hwy⟩
  · intro rect hrect
    obtain ⟨wl, hwl, hwlx⟩ := List.mem_map.mp hLmin.1
    obtain ⟨wr, hwr, hwrx⟩ := List.mem_map.mp hRmax.1
    obtain ⟨wt, hwt, hwty⟩ := List.mem_map.mp hTmin.1
    obtain ⟨wb, hwb, hwby⟩ := List.mem_map.mp hBmax.1
    refine ⟨?_, ?_, ?_, ?_⟩
    · exact hwlx ▸ (hrect wl hwl).1
    · exact hwrx ▸ (hrect wr hwr).2.1
    · exact hwty ▸ (hrect wt hwt).2.2.1
    · exact hwby ▸ (hrect wb hwb).2.2.2

theorem c1_witness :
    GetBounds exTri = ⟨0, 0, 10, 5⟩ ∧
    ∀ w ∈ exTri.myVertices, containsPoint (GetBounds exTri) w.Position := by
  have h := c1_getBounds_minmax exTri vert00 [vert100, vert55] rfl
  refine ⟨h.1.trans ?_, h.2.1⟩
  norm_num [foldlMin, foldlMax, vert00, vert100, vert55, defaultVertex, min_def, max_def]

/-- C7: `GetBounds` is invariant under any permutation of the vertex
sequence, and appending a vertex whose position lies strictly inside the
current bounds leaves `GetBounds` unchanged. -/
theorem c7_bounds_perm_inside (va vb : VertexArray) (v : Vertex) :
    (va.myVertices.Perm vb.myVertices → GetBounds va = GetBounds vb) ∧
    (strictlyInside (GetBounds va) v.Position →
      GetBounds (Append va v) = GetBounds va) := by
  obtain ⟨vs, pt⟩ := va
  obtain ⟨ws, qt⟩ := vb
  constructor
  · intro hp
    change vs.Perm ws at hp
    cases vs with
    | nil =>
        have hw : ws = [] := hp.symm.eq_nil
        subst hw
        rfl
    | cons a l =>
        cases ws with
        | nil => exact absurd hp.eq_nil (List.cons_ne_nil a l)
        | cons b m =>
            have hpx : (positionsX ⟨a :: l, pt⟩).Perm (positionsX ⟨b :: m, qt⟩) := by
              unfold positionsX
              exact hp.map _
            have hpy : (positionsY ⟨a :: l, pt⟩).Perm (positionsY ⟨b :: m, qt⟩) := by
              unfold positionsY
              exact hp.map _
            exact rect_ext _ _
              (isMinOf_unique _ _ _ _ hpx (getBounds_left_isMin a l pt)
                (getBounds_left_isMin b m qt))
              (isMinOf_unique _ _ _ _ hpy (getBounds_top_isMin a l pt)
                (getBounds_top_isMin b m qt))
              (isMaxOf_unique _ _ _ _ hpx (getBounds_right_isMax a l pt)
                (getBounds_right_isMax b m qt))
              (isMaxOf_unique _ _ _ _ hpy (getBounds_bottom_isMax a l pt)
                (getBounds_bottom_isMax b m qt))
  · intro hin
    cases vs with
    | nil =>
        exfalso
        have h1 : (0 : ℚ) < v.Position.x := hin.1
        have h2 : v.Position.x < 0 + 0 := hin.2.1
        linarith
    | cons a l =>
        rw [getBounds_cons] at hin
        obtain ⟨hx1, hx2, hy1, hy2⟩ := hin
        simp only at hx1 hx2 hy1 hy2
        have hxM : v.Position.x < foldlMax a.Position.x (l.map fun w => w.Position.x) := by
          linarith
        have hyM : v.Position.y < foldlMax a.Position.y (l.map fun w => w.Position.y) := by
          linarith
        show GetBounds ⟨a :: (l ++ [v]), pt⟩ = GetBounds ⟨a :: l, pt⟩
        rw [getBounds_cons, getBounds_cons, List.map_append, List.map_append]
        simp only [List.map_cons, List.map_nil]
        rw [foldlMin_append_singleton, foldlMax_append_singleton,
          foldlMin_append_singleton, foldlMax_append_singleton,
          min_eq_left (le_of_lt hx1), max_eq_left (le_of_lt hxM),
          min_eq_left (le_of_lt hy1), max_eq_left (le_of_lt hyM)]

theorem c7_witness :
    GetBounds exPair = GetBounds exPairRev ∧
    GetBounds (Append exPair vert55) = GetBounds exPair :=
  ⟨(c7_bounds_perm_inside exPair exPairRev vert55).1 (by decide),
   (c7_bounds_perm_inside exPair exPairRev vert55).2 (by
      show strictlyInside (GetBounds ⟨vert00 :: [vert1010], .Lines⟩) vert55.Position
      rw [getBounds_cons]
      norm_num [strictlyInside, foldlMin, foldlMax, vert00, vert1010, vert55,
        defaultVertex, min_def, max_def])⟩

end VertexArray

namespace VertexArrayMem

theorem appendAllMem_no_realloc (vs : List Vertex) (s : VertexArrayMem)
    (h : s.array.GetVertexCount + vs.length ≤ s.capacity) :
    (appendAllMem s vs).allocId = s.allocId ∧
    (appendAllMem s vs).capacity = s.capacity ∧
    (appendAllMem s vs).array = VertexArray.appendAll s.array vs := by
  induction vs generalizing s with
  | nil => exact ⟨rfl, rfl, rfl⟩
  | cons v vs ih =>
      have hlt : s.array.GetVertexCount < s.capacity := by
        simp only [List.length_cons] at h
        omega
      have hA : AppendMem s v = { s with array := s.array.Append v } := by
        rw [AppendMem, if_pos hlt]
      have hcount : (s.array.Append v).GetVertexCount = s.array.GetVertexCount + 1 := by
        simp [VertexArray.Append, VertexArray.GetVertexCount]
      have hnext :
          ({ s with array := s.array.Append v } : VertexArrayMem).array.GetVertexCount
            + vs.length ≤ ({ s with array := s.array.Append v } : VertexArrayMem).capacity := by
        simp only [List.length_cons] at h
        simp only [hcount]
        omega
      have ihs := ih { s with array := s.array.Append v } hnext
      have key : appendAllMem s (v :: vs) = appendAllMem { s with array := s.array.Append v } vs := by
        show appendAllMem (AppendMem s v) vs = _
        rw [hA]
      rw [key]
      exact ⟨ihs.1, ihs.2.1, ihs.2.2⟩

/-- C8: `Clear` retains the backing storage (same capacity, same
allocation), and a subsequent sequence of appends of length at most the
prior size triggers no reallocation: the allocation identity and the
capacity are still those from before the clear. -/
theorem c8_clear_retains_capacity (s : VertexArrayMem) (vs : List Vertex)
    (hinv : s.array.GetVertexCount ≤ s.capacity)
    (hk : vs.length ≤ s.array.GetVertexCount) :
    (ClearMem s).capacity = s.capacity ∧
    (ClearMem s).allocId = s.allocId ∧
    (appendAllMem (ClearMem s) vs).allocId = s.allocId ∧
    (appendAllMem (ClearMem s) vs).capacity = s.capacity ∧
    (appendAllMem (ClearMem s) vs).array.myVertices = vs := by
  have h0 : (ClearMem s).array.GetVertexCount = 0 := rfl
  have hfit : (ClearMem s).array.GetVertexCount + vs.length ≤ (ClearMem s).capacity := by
    have h1 : (ClearMem s).capacity = s.capacity := rfl
    rw [h0, h1]
    omega
  have hmain := appendAllMem_no_realloc vs (ClearMem s) hfit
  refine ⟨rfl, rfl, hmain.1, hmain.2.1, ?_⟩
  rw [hmain.2.2, VertexArray.appendAll_myVertices]
  show [] ++ vs = vs
  exact List.nil_append vs

theorem c8_witness :
    (appendAllMem (ClearMem ⟨exPair, 4, 7⟩) [vert37, vert55]).allocId = 7 ∧
    (appendAllMem (ClearMem ⟨exPair, 4, 7⟩) [vert37, vert55]).capacity = 4 ∧
    (appendAllMem (ClearMem ⟨exPair, 4, 7⟩) [vert37, vert55]).array.myVertices =
      [vert37, vert55] := by
  have h := c8_clear_retains_capacity ⟨exPair, 4, 7⟩ [vert37, vert55]
    (by decide) (by decide)
  exact ⟨h.2.2.1, h.2.2.2.1, h.2.2.2.2⟩

end VertexArrayMem

end SFML
